import Mathlib

/-!
Shallow embedding of the rotor reactor core (src/handler.rs) and of its
reference transports (src/transports/greedy_stream.rs, accept.rs, udp.rs).

Conventions of the embedding:
* Machine integers (`u64` generation counter, `usize` slot index) are embedded
  as `Nat`; the program never relies on wrap-around for these counters.
* The `slab` crate is an external dependency of the repository (not under
  src/).  Its two entry points used by handler.rs are modelled from the spec:
  `insert_with` allocates a free slot (spec section 4.1, "allocates a free
  slot (reusing a previously freed index if any exists)"; we pick the first
  free index, which is one such policy) and cancels the insertion when the
  closure returns `None`; `replace_with` takes the machine out of the slot,
  leaving a placeholder so that nested inserts cannot take the same index
  (spec section 4.1, "leaving a placeholder so the table stays indexable ...
  a registry view that excludes the now-vacant slot"), runs the closure and
  writes back `Some` to re-occupy or `None` to free.
* The mio notification channel is a bounded queue; `send` succeeds exactly
  when the queue is below capacity, otherwise it returns the message back
  (mio `NotifyError::Full`).  The `Io`/`Closed` arms of `send_message` panic
  in the source and are outside the modelled state space.
* `C::Context` is threaded opaquely through every callback in the source and
  is only ever touched inside callbacks; it is not part of the registry state
  and is omitted.  Machine trait objects are modelled as a concrete value
  (`Machine`) plus behaviour functions passed at each dispatch site, mirroring
  how handler.rs only ever interacts with a machine through the closure given
  to `with_machine`.
-/

namespace Rotor

/-- Abort reasons, from `enum Abort` in handler.rs. -/
inductive Abort where
  | registerFailed
  | machineAddError
deriving DecidableEq, Repr

/-- A machine value: an identity plus the outcome its `register` callback
would report.  The dynamic behaviour of the trait object (its `ready`,
`timeout`, ... methods) is supplied as functions at each dispatch site. -/
structure Machine where
  mid : Nat
  registerOk : Bool
deriving DecidableEq, Repr

/-- `Token` from handler.rs: a slot index (`mio_token`) plus an optional
generation counter; `counter = none` means "match any generation". -/
structure Token where
  mio_token : Nat
  counter : Option Nat
deriving DecidableEq, Repr

/-- `Token::from_mio`: decode a raw mio token; the generation is unknown. -/
def Token.of_raw (raw : Nat) : Token := ⟨raw, none⟩

/-- `Token::set_counter`. -/
def Token.set_counter (t : Token) (c : Nat) : Token := { t with counter := some c }

/-- `Token::counter_eq`: a token with a generation matches only that
generation; a token without one matches every generation. -/
def Token.counter_eq (t : Token) (other_counter : Nat) : Bool :=
  match t.counter with
  | some c => c == other_counter
  | none => true

/-- `EventMachineSlot` from handler.rs: one occupied slab entry. -/
structure EventMachineSlot where
  machine : Machine
  counter : Nat
deriving DecidableEq, Repr

/-- Channel messages (`MessageInner`); only `RegisterMachine` exists. -/
inductive Msg where
  | registerMachine (t : Token)
deriving DecidableEq, Repr

/-- The bounded mio notification channel. -/
structure Channel where
  cap : Nat
  msgs : List Msg
deriving DecidableEq, Repr

/-- A pending timer: `Timeout<C>` from handler.rs (token + payload).
`C::Timeout` payloads are embedded as `Nat`. -/
structure TimeoutEntry where
  token : Token
  payload : Nat
deriving DecidableEq, Repr

/-- The state owned by `Handler<C>` together with the event loop pieces the
scope can touch: the slab of machine slots, the shared generation counter
(`counter_next`), the notification channel and the armed timers. -/
structure HState where
  slab : List (Option EventMachineSlot)
  counter_next : Nat
  channel : Channel
  timers : List TimeoutEntry
deriving DecidableEq, Repr

/-- `Handler::new`: an empty slab of the given capacity, counter at zero. -/
def initState (cap ccap : Nat) : HState :=
  { slab := List.replicate cap none
    counter_next := 0
    channel := ⟨ccap, []⟩
    timers := [] }

/-- Modelled from the spec: free-slot allocation of the external slab crate
(spec section 4.1).  Returns the first free index, if any. -/
def findFree : List (Option EventMachineSlot) → Option Nat
  | [] => none
  | none :: _ => some 0
  | some _ :: rest => (findFree rest).map (· + 1)

/-- `send_message` from handler.rs, restricted to the non-panicking arms:
`Ok` when the bounded channel has room, `Err(Full(m))` handing the message
back otherwise. -/
def send_message (ch : Channel) (m : Msg) : Except Msg Channel :=
  if ch.msgs.length < ch.cap then .ok ⟨ch.cap, ch.msgs ++ [m]⟩ else .error m

/-- `Scope::add_machine`: reserve a free slot, build the generation-stamped
token, enqueue the `RegisterMachine` notification, and only then commit the
slot and advance the shared counter; if the channel is full the insertion is
cancelled (`insert_with` closure returning `None`) and the machine is handed
back; if no slot is free the machine is handed back with nothing changed. -/
def add_machine (st : HState) (m : Machine) : Except Machine Token × HState :=
  match findFree st.slab with
  | none => (.error m, st)
  | some idx =>
    let tok : Token := (Token.of_raw idx).set_counter st.counter_next
    match send_message st.channel (.registerMachine tok) with
    | .ok ch =>
      (.ok tok,
        { st with
            slab := st.slab.set idx (some ⟨m, st.counter_next⟩)
            counter_next := st.counter_next + 1
            channel := ch })
    | .error _ => (.error m, st)

/-- The state-affecting operations a callback can issue through its `Scope`:
`Scope::add_machine` and `Scope::set_timeout` (the timer is armed against
`self.token`, the token of the dispatch that built the scope).
`Scope::register` only talks to the poller and `Scope::clear_timeout` only
drops a pending timer; neither touches the registry. -/
inductive ScopeOp where
  | spawn (m : Machine)
  | setTimeout (payload : Nat)

/-- Run the scope operations a callback issued, in order. -/
def applyScopeOps (tok : Token) : HState → List ScopeOp → HState
  | st, [] => st
  | st, .spawn m :: rest => applyScopeOps tok (add_machine st m).2 rest
  | st, .setTimeout p :: rest =>
      applyScopeOps tok { st with timers := st.timers ++ [⟨tok, p⟩] } rest

/-- What one callback invocation produces: the machine's replacement
(`Option<()>` in the source, owning semantics: `none` destroys the machine),
the scope operations it issued, and the `abort` calls it made. -/
structure CBOut where
  next : Option Machine
  ops : List ScopeOp
  aborts : List Abort

/-- A callback body, as `with_machine` sees it. -/
def CB : Type := Machine → CBOut

/-- Commit phase of `slab::replace_with`: first the scope operations issued
during the callback are already in the state (the active index stayed
reserved while they ran), then the callback's return value re-occupies the
slot (`Some`, generation unchanged) or frees it (`None`). -/
def scope_commit (tok : Token) (slot : EventMachineSlot) (out : CBOut) (st : HState) : HState :=
  let st1 := applyScopeOps tok st out.ops
  { st1 with
      slab := st1.slab.set tok.mio_token (out.next.map fun m => ⟨m, slot.counter⟩) }

/-- `Handler::with_machine`: look the token up in the slab; a free (or out of
range) index is `Err(())`; an occupied slot whose generation does not match
the token is left untouched (`Ok`, "Token refers to a machine that has been
removed"); otherwise the callback runs with a scope built on this token and
its result is written back. -/
def with_machine (st : HState) (tok : Token) (f : CB) :
    Except Unit Unit × HState × List Abort :=
  match st.slab[tok.mio_token]? with
  | some (some slot) =>
    if tok.counter_eq slot.counter then
      let out := f slot.machine
      (.ok (), scope_commit tok slot out st, out.aborts)
    else
      (.ok (), st, [])
  | _ => (.error (), st, [])

/-- `mio::Handler::ready` for `Handler<C>`: the raw token is decoded with
`Token::from_mio` (no generation) and the machine's `ready` callback is
dispatched through `with_machine`; the `Result` is discarded ("Spurious
events are ok in mio"). -/
def handlerReady (st : HState) (raw : Nat) (f : CB) : HState :=
  (with_machine st (Token.of_raw raw) f).2.1

/-- `mio::Handler::timeout`: dispatch the machine's `timeout` callback at the
token stored in the timer entry; the `Result` is discarded. -/
def handlerTimeout (st : HState) (e : TimeoutEntry) (tf : Nat → CB) : HState :=
  (with_machine st e.token (tf e.payload)).2.1

/-- `mio::Handler::notify` on a `RegisterMachine` message: run the machine's
`register` callback; on success keep the machine, on failure call
`abort(RegisterFailed)` and return `None` so the slot is freed.  `regb` gives
the outcome of the machine's `register` method together with the scope
operations it issued before returning. -/
def handlerNotify (st : HState) (msg : Msg) (regb : Machine → Bool × List ScopeOp) :
    HState × List Abort :=
  match msg with
  | .registerMachine tok =>
    let r := with_machine st tok fun m =>
      match regb m with
      | (true, ops) => ⟨some m, ops, []⟩
      | (false, ops) => ⟨none, ops, [Abort.registerFailed]⟩
    (r.2.1, r.2.2)

/-- One observable step of the reactor: either a machine is added (all
additions go through `Scope::add_machine`) or some event is dispatched
through `with_machine` (readiness, timeout and notification dispatch all
factor through it). -/
inductive Step : HState → HState → Prop where
  | spawn (st : HState) (m : Machine) : Step st (add_machine st m).2
  | dispatch (st : HState) (tok : Token) (f : CB) : Step st (with_machine st tok f).2.1

/-- Reachability by a sequence of reactor steps. -/
inductive Reach : HState → HState → Prop where
  | refl (st : HState) : Reach st st
  | tail {st t u : HState} : Reach st t → Step t u → Reach st u

/-- Registry invariant: every stored generation is below the shared counter. -/
def Inv (st : HState) : Prop :=
  ∀ (i : Nat) (s : EventMachineSlot), st.slab[i]? = some (some s) → s.counter < st.counter_next

/-- After index `idx` has been freed with the counter at least `c`, every
later occupant of `idx` carries a generation at least `c`. -/
def FreshFrom (c idx : Nat) (st : HState) : Prop :=
  c ≤ st.counter_next ∧
    ∀ (s : EventMachineSlot), st.slab[idx]? = some (some s) → c ≤ s.counter

/-- Staleness of a token in a state: the addressed slot is free (or out of
range), or it is occupied with a generation the token does not match. -/
def stale (st : HState) (tok : Token) : Prop :=
  match st.slab[tok.mio_token]? with
  | some (some slot) => tok.counter_eq slot.counter = false
  | _ => True

/-- A sequence of event dispatches, run one after the other. -/
def runDispatches : HState → List (Token × CB) → HState
  | st, [] => st
  | st, (tok, f) :: rest => runDispatches (with_machine st tok f).2.1 rest

/-- The dispatch reaches its callback and the callback returns nothing. -/
def callbackKills (st : HState) (tok : Token) (f : CB) : Bool :=
  match st.slab[tok.mio_token]? with
  | some (some slot) => tok.counter_eq slot.counter && (f slot.machine).next.isNone
  | _ => false

/-- The dispatch finds the slot occupied and matching and leaves it free. -/
def slotFreed (st : HState) (tok : Token) (f : CB) : Bool :=
  match st.slab[tok.mio_token]?, (with_machine st tok f).2.1.slab[tok.mio_token]? with
  | some (some slot), some none => tok.counter_eq slot.counter
  | _, _ => false

/-- Number of dispatches in the sequence whose callback returned nothing. -/
def noneReturns : HState → List (Token × CB) → Nat
  | _, [] => 0
  | st, (tok, f) :: rest =>
      (if callbackKills st tok f then 1 else 0) + noneReturns (with_machine st tok f).2.1 rest

/-- Number of dispatches in the sequence that freed their machine's slot. -/
def freedCount : HState → List (Token × CB) → Nat
  | _, [] => 0
  | st, (tok, f) :: rest =>
      (if slotFreed st tok f then 1 else 0) + freedCount (with_machine st tok f).2.1 rest

/-- A mio readiness set, reduced to the two bits the transports inspect. -/
structure EvSet where
  readable : Bool
  writable : Bool
deriving DecidableEq, Repr

/-- mio poll registration mode. -/
inductive PollMode where
  | edge
  | level
deriving DecidableEq, Repr

end Rotor

/-!
Embedding of src/transports/greedy_stream.rs: the `Stream` machine's `ready`
handler.  The socket is modelled as a script of results its successive
`read`/`write` calls produce (an exhausted script behaves as "would block");
the pluggable protocol's `data_received` is a function from the protocol
state and the two buffers to the next protocol state (`none` destroys the
machine) and the updated buffers.
-/

namespace Rotor.Greedy

/-- Result of one `Buf::read_from` call: `chunk bs` is `Ok(bs.len())` with
the bytes appended to the input buffer (`chunk []` is `Ok(0)`, peer EOF),
plus the `WouldBlock` / `Interrupted` / fatal error kinds. -/
inductive RdRes where
  | chunk (bs : List Nat)
  | wouldBlock
  | interrupted
  | fatal
deriving DecidableEq, Repr

/-- Result of one `Buf::write_to` call: `wrote n` is `Ok(n)` (`wrote 0` is a
closed connection), plus `WouldBlock` / `Interrupted` / fatal error kinds. -/
inductive WrRes where
  | wrote (n : Nat)
  | wouldBlock
  | interrupted
  | fatal
deriving DecidableEq, Repr

/-- The stream socket as the scripts of its pending read and write results. -/
structure Sock where
  reads : List RdRes
  writes : List WrRes
deriving DecidableEq, Repr

/-- `Stream<T, P, C>` from greedy_stream.rs. -/
structure Stream (P : Type) where
  sock : Sock
  inbuf : List Nat
  outbuf : List Nat
  writable : Bool
  readable : Bool
  protocol : Option P
deriving DecidableEq

/-- The protocol's `data_received`: old state, input buffer, output buffer to
next state (none kills the machine) and updated buffers. -/
def PFun (P : Type) : Type := P → List Nat → List Nat → Option P × List Nat × List Nat

/-- The output-flush loop (`while self.outbuf.len() > 0`), entered with the
writable flag just set: returns the remaining output buffer, the rest of the
write script, and the resulting writable flag (`true` when the buffer
drained, `false` when the socket would block); `none` when the connection
closed (`Ok(0)`, `eof_received`) or a fatal error fired (`error_happened`),
after which `ready` returns nothing. -/
def flush : List WrRes → List Nat → Option (List Nat × List WrRes × Bool)
  | ws, [] => some ([], ws, true)
  | [], ob => some (ob, [], false)
  | .wrote 0 :: _, _ :: _ => none
  | .wrote (n + 1) :: rest, ob => flush rest (ob.drop (n + 1))
  | .wouldBlock :: rest, ob => some (ob, rest, false)
  | .interrupted :: rest, ob => flush rest ob
  | .fatal :: _, _ => none

/-- The input loop: read chunks are appended to the input buffer and handed
to `data_received` one by one until the socket would block (`Interrupted`
retries); `none` for peer EOF, a fatal error, or the protocol returning
nothing. -/
def readLoop {P : Type} (pf : PFun P) :
    List RdRes → P → List Nat → List Nat → Option (P × List Nat × List Nat × List RdRes)
  | [], p, ib, ob => some (p, ib, ob, [])
  | .chunk [] :: _, _, _, _ => none
  | .chunk (b :: bs) :: rest, p, ib, ob =>
      match pf p (ib ++ b :: bs) ob with
      | (some p', ib', ob') => readLoop pf rest p' ib' ob'
      | (none, _, _) => none
  | .wouldBlock :: rest, p, ib, ob => some (p, ib, ob, rest)
  | .interrupted :: rest, p, ib, ob => readLoop pf rest p ib ob
  | .fatal :: _, _, _, _ => none

/-- `Stream::ready` from greedy_stream.rs: take the protocol out (a missing
protocol ends the machine), opportunistically flush the output buffer on a
writable event, drain the socket on a readable event feeding every chunk to
`data_received`, then flush again if still writable; `none` destroys the
machine. -/
def ready {P : Type} (pf : PFun P) (ev : EvSet) (s : Stream P) : Option (Stream P) :=
  match s.protocol with
  | none => none
  | some p0 =>
    match (if ev.writable && !s.outbuf.isEmpty then flush s.sock.writes s.outbuf
           else some (s.outbuf, s.sock.writes, s.writable)) with
    | none => none
    | some (ob1, ws1, w1) =>
      match (if ev.readable then
               (readLoop pf s.sock.reads p0 s.inbuf ob1).map
                 (fun x => (x.1, x.2.1, x.2.2.1, x.2.2.2, false))
             else some (p0, s.inbuf, ob1, s.sock.reads, s.readable)) with
      | none => none
      | some (p2, ib2, ob2, rs2, r2) =>
        match (if w1 && !ob2.isEmpty then flush ws1 ob2
               else some (ob2, ws1, w1)) with
        | none => none
        | some (ob3, ws3, w3) =>
          some { sock := ⟨rs2, ws3⟩, inbuf := ib2, outbuf := ob3, writable := w3,
                 readable := r2, protocol := some p2 }

end Rotor.Greedy

/-!
Embedding of src/transports/accept.rs: the `Serve` machine.  Its `ready`
consults the listening socket once per event (`sock.accept()`), builds a
child through the pluggable `Init::accept` factory and spawns it through the
scope, aborting the child with `MachineAddError` when the spawn fails.  The
scope is modelled as the list of machines spawned so far with a capacity,
plus the abort calls observed.
-/

namespace Rotor.Accepting

/-- Result of one `TryAccept::accept` call. -/
inductive AcceptRes where
  | conn (c : Nat)
  | noneReady
  | fatal
deriving DecidableEq, Repr

/-- `Serve<A, M, C>`: the listening arm (with the script of its pending
accept results) or a connection arm wrapping a child machine. -/
inductive Serve (M : Type) where
  | accept (script : List AcceptRes)
  | connection (m : M)
deriving DecidableEq

/-- The scope as `Serve::ready` observes it: spawned machines (bounded by a
capacity, spawning past it fails) and recorded aborts. -/
structure ScopeSt (M : Type) where
  cap : Nat
  spawned : List (Serve M)
  aborts : List Rotor.Abort
deriving DecidableEq

/-- `Scope::async_add_machine`: succeed while below capacity, else hand the
machine back (modelled as a failure flag). -/
def async_add_machine {M : Type} (sc : ScopeSt M) (m : Serve M) : Bool × ScopeSt M :=
  if sc.spawned.length < sc.cap then (true, { sc with spawned := sc.spawned ++ [m] })
  else (false, sc)

/-- `Serve::ready` from accept.rs: on the accept arm, call `accept()` once;
a pending connection is turned into a child machine via `Init::accept` and
spawned (a failed spawn aborts the child with `MachineAddError`); `Ok(None)`
and errors (logged) leave the state alone; the accept machine itself always
survives.  On the connection arm, delegate to the child's `ready`. -/
def serveReady {M : Type} (init : Nat → M)
    (mready : M → EvSet → ScopeSt M → Option M × ScopeSt M)
    (ev : EvSet) (s : Serve M) (sc : ScopeSt M) : Option (Serve M) × ScopeSt M :=
  match s with
  | .accept script =>
    match script with
    | [] => (some (.accept []), sc)
    | .conn c :: rest =>
      match async_add_machine sc (.connection (init c)) with
      | (true, sc1) => (some (.accept rest), sc1)
      | (false, sc1) =>
        (some (.accept rest), { sc1 with aborts := sc1.aborts ++ [Rotor.Abort.machineAddError] })
    | .noneReady :: rest => (some (.accept rest), sc)
    | .fatal :: rest => (some (.accept rest), sc)
  | .connection m =>
    let r := mready m ev sc
    (r.1.map Serve.connection, r.2)

/-- `Serve::register`: the accept arm registers for readable events with
level-triggered polling; the connection arm delegates to the child. -/
def serveRegisterMode {M : Type} (creg : M → EvSet × PollMode) :
    Serve M → EvSet × PollMode
  | .accept _ => (⟨true, false⟩, .level)
  | .connection m => creg m

end Rotor.Accepting

/-!
Embedding of src/transports/udp.rs: the datagram `Socket` machine's `ready`
handler.  The socket is a script of `recv_from` / `send_to` results; the
protocol's `packet_received` gets the packet and may push onto the send
queue through its `Transport`.
-/

namespace Rotor.Udp

/-- Result of one `UdpSocket::recv_from` call. -/
inductive RecvRes where
  | pkt (src : Nat) (data : List Nat)
  | noneReady
  | interrupted
  | fatal
deriving DecidableEq, Repr

/-- Result of one `UdpSocket::send_to` call: `sent n` is `Ok(Some(n))`
(possibly a partial write, see the TODO in the source), `blocked` is
`Ok(None)`. -/
inductive SendRes where
  | sent (n : Nat)
  | blocked
  | interrupted
  | fatal
deriving DecidableEq, Repr

/-- The datagram socket as scripts of its pending results. -/
structure USock where
  recvs : List RecvRes
  sends : List SendRes
deriving DecidableEq, Repr

/-- `Socket<P, C>` from udp.rs. -/
structure UdpSocket (P : Type) where
  sock : USock
  send_queue : List (Nat × List Nat)
  protocol : Option P
deriving DecidableEq

/-- The protocol's `packet_received`: state, packet and send queue to next
state (none kills the machine) and updated send queue. -/
def UFun (P : Type) : Type :=
  P → Nat × List Nat → List (Nat × List Nat) → Option P × List (Nat × List Nat)

/-- The receive loop: datagrams are delivered one at a time until the socket
has none ready (`Interrupted` retries); `none` for a fatal error or the
protocol returning nothing. -/
def recvLoop {P : Type} (pf : UFun P) :
    List RecvRes → P → List (Nat × List Nat) →
    Option (P × List (Nat × List Nat) × List RecvRes)
  | [], p, q => some (p, q, [])
  | .pkt s d :: rest, p, q =>
      match pf p (s, d) q with
      | (some p', q') => recvLoop pf rest p' q'
      | (none, _) => none
  | .noneReady :: rest, p, q => some (p, q, rest)
  | .interrupted :: rest, p, q => recvLoop pf rest p q
  | .fatal :: _, _, _ => none

/-- The send loop (`while let Some((target, buf)) = self.send_queue
.pop_front()`): a successful `send_to` drops the datagram from the queue
whatever `n` says (the partial-write case is a TODO in the source); a
blocked send pushes it back at the front and stops; `Interrupted` pushes it
back and retries; a fatal error pushes it back and kills the machine. -/
def sendLoop : List SendRes → List (Nat × List Nat) →
    Option (List (Nat × List Nat) × List SendRes)
  | ss, [] => some ([], ss)
  | [], q => some (q, [])
  | .sent _ :: rest, _ :: q => sendLoop rest q
  | .blocked :: rest, d :: q => some (d :: q, rest)
  | .interrupted :: rest, d :: q => sendLoop rest (d :: q)
  | .fatal :: _, _ :: _ => none

/-- `Socket::ready` from udp.rs: drain inbound datagrams on a readable
event, then attempt queued sends on a writable event while the queue is
non-empty; `none` destroys the machine. -/
def uready {P : Type} (pf : UFun P) (ev : EvSet) (s : UdpSocket P) : Option (UdpSocket P) :=
  match s.protocol with
  | none => none
  | some p0 =>
    match (if ev.readable then recvLoop pf s.sock.recvs p0 s.send_queue
           else some (p0, s.send_queue, s.sock.recvs)) with
    | none => none
    | some (p1, q1, rs1) =>
      match (if ev.writable && !q1.isEmpty then sendLoop s.sock.sends q1
             else some (q1, s.sock.sends)) with
      | none => none
      | some (q2, ss2) =>
        some { sock := ⟨rs1, ss2⟩, send_queue := q2, protocol := some p1 }

end Rotor.Udp

namespace Rotor

theorem findFree_spec : ∀ (l : List (Option EventMachineSlot)) (i : Nat),
    findFree l = some i → l[i]? = some none := by
  intro l
  induction l with
  | nil => intro i h; simp [findFree] at h
  | cons hd tl ih =>
    intro i h
    cases hd with
    | none =>
      simp [findFree] at h
      subst h; simp
    | some s =>
      simp only [findFree, Option.map_eq_some'] at h
      obtain ⟨j, hj, hji⟩ := h
      subst hji
      simpa using ih j hj

theorem add_machine_error {st : HState} {m m' : Machine} {st' : HState}
    (h : add_machine st m = (.error m', st')) : m' = m ∧ st' = st := by
  cases hf : findFree st.slab with
  | none =>
    simp only [add_machine, hf, Prod.mk.injEq, Except.error.injEq] at h
    exact ⟨h.1.symm, h.2.symm⟩
  | some idx =>
    cases hs : send_message st.channel (.registerMachine ((Token.of_raw idx).set_counter st.counter_next)) with
    | ok ch =>
      simp only [add_machine, hf, hs, Prod.mk.injEq] at h
      exact absurd h.1 (by simp)
    | error e =>
      simp only [add_machine, hf, hs, Prod.mk.injEq, Except.error.injEq] at h
      exact ⟨h.1.symm, h.2.symm⟩

theorem add_machine_ok {st : HState} {m : Machine} {tok : Token} {st' : HState}
    (h : add_machine st m = (.ok tok, st')) :
    st.slab[tok.mio_token]? = some none ∧
    tok.counter = some st.counter_next ∧
    st'.slab = st.slab.set tok.mio_token (some ⟨m, st.counter_next⟩) ∧
    st'.counter_next = st.counter_next + 1 ∧
    st'.channel.msgs = st.channel.msgs ++ [Msg.registerMachine tok] ∧
    st'.channel.cap = st.channel.cap ∧
    st'.timers = st.timers ∧
    st.channel.msgs.length < st.channel.cap := by
  cases hf : findFree st.slab with
  | none => simp [add_machine, hf] at h
  | some idx =>
    cases hs : send_message st.channel (.registerMachine ((Token.of_raw idx).set_counter st.counter_next)) with
    | ok ch =>
      simp only [add_machine, hf, hs, Prod.mk.injEq, Except.ok.injEq] at h
      obtain ⟨ht, hst⟩ := h
      unfold send_message at hs
      by_cases hlt : st.channel.msgs.length < st.channel.cap
      · rw [if_pos hlt] at hs
        have hch : ch = ⟨st.channel.cap,
            st.channel.msgs ++ [Msg.registerMachine ((Token.of_raw idx).set_counter st.counter_next)]⟩ := by
          cases hs; rfl
        subst hch
        rw [← hst, ← ht]
        refine ⟨?_, rfl, rfl, rfl, rfl, rfl, rfl, hlt⟩
        simpa [Token.of_raw, Token.set_counter] using findFree_spec st.slab idx hf
      · rw [if_neg hlt] at hs
        exact absurd hs (by simp)
    | error e =>
      simp only [add_machine, hf, hs, Prod.mk.injEq] at h
      exact absurd h.1 (by simp)

theorem add_machine_counter_le (st : HState) (m : Machine) :
    st.counter_next ≤ (add_machine st m).2.counter_next := by
  cases h : add_machine st m with
  | mk r st' =>
    cases r with
    | ok tok =>
      have := (add_machine_ok h).2.2.2.1
      simp only [this]
      omega
    | error m' =>
      have := (add_machine_error h).2
      simp [this]

theorem add_machine_length (st : HState) (m : Machine) :
    (add_machine st m).2.slab.length = st.slab.length := by
  cases h : add_machine st m with
  | mk r st' =>
    cases r with
    | ok tok => simp [(add_machine_ok h).2.2.1]
    | error m' => simp [(add_machine_error h).2]

/-- `add_machine` never disturbs an occupied slot. -/
theorem add_machine_occupied (st : HState) (m : Machine) {i : Nat} {s : EventMachineSlot}
    (h : st.slab[i]? = some (some s)) :
    (add_machine st m).2.slab[i]? = some (some s) := by
  cases hh : add_machine st m with
  | mk r st' =>
    cases r with
    | ok tok =>
      obtain ⟨hfree, _, hslab, _⟩ := add_machine_ok hh
      have hne : tok.mio_token ≠ i := by
        intro he; rw [he] at hfree; rw [hfree] at h; simp at h
      simp [hslab, List.getElem?_set_ne hne, h]
    | error m' =>
      have := (add_machine_error hh).2
      simp [this, h]

/-- Any change `add_machine` makes to a slot fills a previously free slot
with the pre-state's fresh generation. -/
theorem add_machine_get (st : HState) (m : Machine) (i : Nat) :
    (add_machine st m).2.slab[i]? = st.slab[i]? ∨
    (st.slab[i]? = some none ∧
      (add_machine st m).2.slab[i]? = some (some ⟨m, st.counter_next⟩)) := by
  cases hh : add_machine st m with
  | mk r st' =>
    cases r with
    | ok tok =>
      obtain ⟨hfree, _, hslab, _⟩ := add_machine_ok hh
      by_cases he : tok.mio_token = i
      · subst he
        right
        refine ⟨hfree, ?_⟩
        have hlt : tok.mio_token < st.slab.length := by
          by_contra hge
          rw [List.getElem?_eq_none (Nat.le_of_not_lt hge)] at hfree
          exact Option.noConfusion hfree
        simp [hslab, List.getElem?_set_self hlt]
      · left; simp [hslab, List.getElem?_set_ne he]
    | error m' =>
      left
      have := (add_machine_error hh).2
      simp [this]

theorem applyScopeOps_counter_le (tok : Token) :
    ∀ (ops : List ScopeOp) (st : HState),
      st.counter_next ≤ (applyScopeOps tok st ops).counter_next := by
  intro ops
  induction ops with
  | nil => intro st; simp [applyScopeOps]
  | cons op rest ih =>
    intro st
    cases op with
    | spawn m =>
      calc st.counter_next ≤ (add_machine st m).2.counter_next := add_machine_counter_le st m
        _ ≤ _ := ih (add_machine st m).2
    | setTimeout p =>
      rw [applyScopeOps]
      exact ih { st with timers := st.timers ++ [⟨tok, p⟩] }

theorem applyScopeOps_length (tok : Token) :
    ∀ (ops : List ScopeOp) (st : HState),
      (applyScopeOps tok st ops).slab.length = st.slab.length := by
  intro ops
  induction ops with
  | nil => intro st; simp [applyScopeOps]
  | cons op rest ih =>
    intro st
    cases op with
    | spawn m => rw [applyScopeOps, ih, add_machine_length]
    | setTimeout p => exact ih _

/-- Scope operations never disturb an occupied slot. -/
theorem applyScopeOps_occupied (tok : Token) :
    ∀ (ops : List ScopeOp) (st : HState) (i : Nat) (s : EventMachineSlot),
      st.slab[i]? = some (some s) →
      (applyScopeOps tok st ops).slab[i]? = some (some s) := by
  intro ops
  induction ops with
  | nil => intro st i s h; simpa [applyScopeOps] using h
  | cons op rest ih =>
    intro st i s h
    cases op with
    | spawn m => exact ih _ i s (add_machine_occupied st m h)
    | setTimeout p => exact ih _ i s h

/-- Any slot a run of scope operations changes was free and is filled with a
generation at least the pre-state's counter. -/
theorem applyScopeOps_get (tok : Token) :
    ∀ (ops : List ScopeOp) (st : HState) (i : Nat),
      (applyScopeOps tok st ops).slab[i]? = st.slab[i]? ∨
      (st.slab[i]? = some none ∧
        ∃ s : EventMachineSlot, (applyScopeOps tok st ops).slab[i]? = some (some s) ∧
          st.counter_next ≤ s.counter) := by
  intro ops
  induction ops with
  | nil => intro st i; left; simp [applyScopeOps]
  | cons op rest ih =>
    intro st i
    cases op with
    | setTimeout p =>
      rcases ih { st with timers := st.timers ++ [⟨tok, p⟩] } i with h | ⟨h1, s, h2, h3⟩
      · left; simpa [applyScopeOps] using h
      · right; exact ⟨h1, s, by simpa [applyScopeOps] using h2, h3⟩
    | spawn m =>
      rcases add_machine_get st m i with h | ⟨h1, h2⟩
      · rcases ih (add_machine st m).2 i with h' | ⟨h1', s, h2', h3'⟩
        · left; rw [applyScopeOps, h', h]
        · right
          refine ⟨by rw [← h, h1'], s, by simpa [applyScopeOps] using h2', ?_⟩
          exact le_trans (add_machine_counter_le st m) h3'
      · right
        refine ⟨h1, ⟨m, st.counter_next⟩, ?_, le_refl _⟩
        rw [applyScopeOps]
        exact applyScopeOps_occupied tok rest _ i _ h2

theorem with_machine_free {st : HState} {tok : Token} (f : CB)
    (h : st.slab[tok.mio_token]? = some none) :
    with_machine st tok f = (.error (), st, []) := by
  simp [with_machine, h]

theorem with_machine_oob {st : HState} {tok : Token} (f : CB)
    (h : st.slab[tok.mio_token]? = none) :
    with_machine st tok f = (.error (), st, []) := by
  simp [with_machine, h]

theorem with_machine_mismatch {st : HState} {tok : Token} {slot : EventMachineSlot} (f : CB)
    (h : st.slab[tok.mio_token]? = some (some slot))
    (hc : tok.counter_eq slot.counter = false) :
    with_machine st tok f = (.ok (), st, []) := by
  simp [with_machine, h, hc]

theorem with_machine_match {st : HState} {tok : Token} {slot : EventMachineSlot} (f : CB)
    (h : st.slab[tok.mio_token]? = some (some slot))
    (hc : tok.counter_eq slot.counter = true) :
    with_machine st tok f = (.ok (), scope_commit tok slot (f slot.machine) st, (f slot.machine).aborts) := by
  simp [with_machine, h, hc]

theorem scope_commit_get_self {st : HState} (tok : Token) (slot : EventMachineSlot) (out : CBOut)
    (h : tok.mio_token < st.slab.length) :
    (scope_commit tok slot out st).slab[tok.mio_token]? =
      some (out.next.map fun m => ⟨m, slot.counter⟩) := by
  have hlen : tok.mio_token < (applyScopeOps tok st out.ops).slab.length := by
    rw [applyScopeOps_length]; exact h
  simp [scope_commit, List.getElem?_set_self hlen]

theorem scope_commit_counter_le (tok : Token) (slot : EventMachineSlot) (out : CBOut)
    (st : HState) : st.counter_next ≤ (scope_commit tok slot out st).counter_next := by
  simpa [scope_commit] using applyScopeOps_counter_le tok out.ops st

theorem with_machine_counter_le (st : HState) (tok : Token) (f : CB) :
    st.counter_next ≤ (with_machine st tok f).2.1.counter_next := by
  cases h : st.slab[tok.mio_token]? with
  | none => rw [with_machine_oob f h]
  | some o =>
    cases o with
    | none => rw [with_machine_free f h]
    | some slot =>
      cases hc : tok.counter_eq slot.counter with
      | false => rw [with_machine_mismatch f h hc]
      | true =>
        rw [with_machine_match f h hc]
        exact scope_commit_counter_le tok slot (f slot.machine) st

theorem step_counter_le {st st' : HState} (h : Step st st') :
    st.counter_next ≤ st'.counter_next := by
  cases h with
  | spawn m => exact add_machine_counter_le st m
  | dispatch tok f => exact with_machine_counter_le st tok f

theorem reach_counter_le {st st' : HState} (h : Reach st st') :
    st.counter_next ≤ st'.counter_next := by
  induction h with
  | refl => exact le_refl _
  | tail _ hstep ih => exact le_trans ih (step_counter_le hstep)

theorem lt_length_of_get {l : List (Option EventMachineSlot)} {i : Nat}
    {x : Option EventMachineSlot} (h : l[i]? = some x) : i < l.length :=
  (List.getElem?_eq_some.mp h).1

theorem scope_commit_get_ne {st : HState} (tok : Token) (slot : EventMachineSlot)
    (out : CBOut) {i : Nat} (h : i ≠ tok.mio_token) :
    (scope_commit tok slot out st).slab[i]? = (applyScopeOps tok st out.ops).slab[i]? := by
  simp [scope_commit, List.getElem?_set_ne (Ne.symm h)]

theorem add_machine_inv {st : HState} (m : Machine) (h : Inv st) :
    Inv (add_machine st m).2 := by
  cases hh : add_machine st m with
  | mk r st' =>
    cases r with
    | error m' => simpa [(add_machine_error hh).2] using h
    | ok tok =>
      obtain ⟨hfree, _, hslab, hcnt, _⟩ := add_machine_ok hh
      intro i s hi
      simp only [hslab] at hi
      by_cases he : tok.mio_token = i
      · subst he
        rw [List.getElem?_set_self (lt_length_of_get hfree)] at hi
        cases hi
        simp [hcnt]
      · rw [List.getElem?_set_ne he] at hi
        simp only [hcnt]
        exact Nat.lt_succ_of_lt (h i s hi)

theorem applyScopeOps_inv (tok : Token) :
    ∀ (ops : List ScopeOp) (st : HState), Inv st → Inv (applyScopeOps tok st ops) := by
  intro ops
  induction ops with
  | nil => intro st h; simpa [applyScopeOps] using h
  | cons op rest ih =>
    intro st h
    cases op with
    | spawn m => exact ih _ (add_machine_inv m h)
    | setTimeout p =>
      rw [applyScopeOps]
      exact ih { st with timers := st.timers ++ [⟨tok, p⟩] } (fun i s hi => h i s hi)

theorem step_inv {st st' : HState} (h : Inv st) (hs : Step st st') : Inv st' := by
  cases hs with
  | spawn m => exact add_machine_inv m h
  | dispatch tok f =>
    cases hl : st.slab[tok.mio_token]? with
    | none => rw [with_machine_oob f hl]; exact h
    | some o =>
      cases o with
      | none => rw [with_machine_free f hl]; exact h
      | some slot =>
        cases hc : tok.counter_eq slot.counter with
        | false => rw [with_machine_mismatch f hl hc]; exact h
        | true =>
          rw [with_machine_match f hl hc]
          have h1 : Inv (applyScopeOps tok st (f slot.machine).ops) :=
            applyScopeOps_inv tok _ st h
          intro i s hi
          by_cases he : i = tok.mio_token
          · subst he
            rw [scope_commit_get_self tok slot (f slot.machine) (lt_length_of_get hl)] at hi
            cases hn : (f slot.machine).next with
            | none => rw [hn] at hi; simp at hi
            | some m' =>
              rw [hn] at hi
              simp only [Option.map_some'] at hi
              cases hi
              show slot.counter < (scope_commit tok slot (f slot.machine) st).counter_next
              calc slot.counter < st.counter_next := h tok.mio_token slot hl
                _ ≤ _ := scope_commit_counter_le tok slot (f slot.machine) st
          · rw [scope_commit_get_ne tok slot (f slot.machine) he] at hi
            exact h1 i s hi

theorem reach_inv {st st' : HState} (h : Inv st) (hr : Reach st st') : Inv st' := by
  induction hr with
  | refl => exact h
  | tail _ hstep ih => exact step_inv ih hstep

theorem init_inv (cap ccap : Nat) : Inv (initState cap ccap) := by
  intro i s hi
  simp only [initState] at hi
  rcases List.getElem?_eq_some.mp hi with ⟨hlt, hget⟩
  rw [List.getElem_replicate] at hget
  exact absurd hget (by simp)

theorem step_freshFrom {c idx : Nat} {st st' : HState}
    (h : FreshFrom c idx st) (hs : Step st st') : FreshFrom c idx st' := by
  obtain ⟨hle, hocc⟩ := h
  cases hs with
  | spawn m =>
    refine ⟨le_trans hle (add_machine_counter_le st m), ?_⟩
    intro s hi
    rcases add_machine_get st m idx with hg | ⟨hfree, hnew⟩
    · exact hocc s (hg ▸ hi)
    · rw [hnew] at hi
      cases hi
      exact le_trans hle (le_refl _)
  | dispatch tok f =>
    cases hl : st.slab[tok.mio_token]? with
    | none => rw [with_machine_oob f hl]; exact ⟨hle, hocc⟩
    | some o =>
      cases o with
      | none => rw [with_machine_free f hl]; exact ⟨hle, hocc⟩
      | some slot =>
        cases hc : tok.counter_eq slot.counter with
        | false => rw [with_machine_mismatch f hl hc]; exact ⟨hle, hocc⟩
        | true =>
          rw [with_machine_match f hl hc]
          refine ⟨le_trans hle (scope_commit_counter_le tok slot (f slot.machine) st), ?_⟩
          intro s hi
          by_cases he : idx = tok.mio_token
          · subst he
            rw [scope_commit_get_self tok slot (f slot.machine) (lt_length_of_get hl)] at hi
            cases hn : (f slot.machine).next with
            | none => rw [hn] at hi; simp at hi
            | some m' =>
              rw [hn] at hi
              simp only [Option.map_some'] at hi
              cases hi
              exact hocc slot hl
          · rw [scope_commit_get_ne tok slot (f slot.machine) he] at hi
            rcases applyScopeOps_get tok (f slot.machine).ops st idx with hg | ⟨hfree, s', hnew, hge⟩
            · exact hocc s (hg ▸ hi)
            · rw [hnew] at hi
              cases hi
              exact le_trans hle hge

theorem reach_freshFrom {c idx : Nat} {st st' : HState}
    (h : FreshFrom c idx st) (hr : Reach st st') : FreshFrom c idx st' := by
  induction hr with
  | refl => exact h
  | tail _ hstep ih => exact step_freshFrom ih hstep

/-- C1 (Generation uniqueness): generations come from the single
registry-wide counter `counter_next`, which only ever grows, so along any
sequence of reactor steps (inserts via `Scope::add_machine`, removals via a
callback returning nothing, any dispatches), a `Token` carrying the
generation `Some(g)` captured while its slot was occupied never again
matches that slot once the slot has been freed: every later occupant of the
same index carries a strictly larger generation, so `counter_eq` is false
and the stale handle addresses no occupied slot holding a different
machine. -/
theorem generation_uniqueness (cap ccap : Nat) (st st' st'' : HState) (idx : Nat)
    (slot slot' : EventMachineSlot)
    (h0 : Reach (initState cap ccap) st)
    (hcap : st.slab[idx]? = some (some slot))
    (h1 : Reach st st')
    (hfree : st'.slab[idx]? = some none)
    (h2 : Reach st' st'')
    (hocc : st''.slab[idx]? = some (some slot')) :
    Token.counter_eq ⟨idx, some slot.counter⟩ slot'.counter = false := by
  have hinv : Inv st := reach_inv (init_inv cap ccap) h0
  have hlt : slot.counter < st.counter_next := hinv idx slot hcap
  have hm1 : st.counter_next ≤ st'.counter_next := reach_counter_le h1
  have hff : FreshFrom st'.counter_next idx st' := by
    refine ⟨le_refl _, ?_⟩
    intro s hi
    rw [hfree] at hi
    exact absurd hi (by simp)
  have hge : st'.counter_next ≤ slot'.counter := (reach_freshFrom hff h2).2 slot' hocc
  have hne : slot.counter ≠ slot'.counter :=
    Nat.ne_of_lt (lt_of_lt_of_le hlt (le_trans hm1 hge))
  simp [Token.counter_eq, hne]

theorem generation_uniqueness_witness :
    Token.counter_eq ⟨0, some 0⟩
      (EventMachineSlot.mk ⟨1, true⟩ 1).counter = false := by
  have h0 : Reach (initState 2 4) (add_machine (initState 2 4) ⟨0, true⟩).2 :=
    Reach.tail (Reach.refl _) (Step.spawn _ ⟨0, true⟩)
  have h1 : Reach (add_machine (initState 2 4) ⟨0, true⟩).2
      (with_machine (add_machine (initState 2 4) ⟨0, true⟩).2 ⟨0, some 0⟩
        (fun _ => ⟨none, [], []⟩)).2.1 :=
    Reach.tail (Reach.refl _) (Step.dispatch _ ⟨0, some 0⟩ (fun _ => ⟨none, [], []⟩))
  have h2 : Reach (with_machine (add_machine (initState 2 4) ⟨0, true⟩).2 ⟨0, some 0⟩
        (fun _ => ⟨none, [], []⟩)).2.1
      (add_machine (with_machine (add_machine (initState 2 4) ⟨0, true⟩).2 ⟨0, some 0⟩
        (fun _ => ⟨none, [], []⟩)).2.1 ⟨1, true⟩).2 :=
    Reach.tail (Reach.refl _) (Step.spawn _ ⟨1, true⟩)
  exact generation_uniqueness 2 4 _ _ _ 0 ⟨⟨0, true⟩, 0⟩ ⟨⟨1, true⟩, 1⟩
    h0 (by decide) h1 (by decide) h2 (by decide)

/-- C2 (Spawn atomicity): `Scope::add_machine` either returns `Ok` with a
token whose slot now holds the machine stamped with the fresh generation
(the pre-state's `counter_next`), the counter advanced by one, exactly one
`RegisterMachine` notification for that token appended to the channel, and
every other slot and the timers untouched; or it returns `Err` handing the
very machine back with the whole state (slab, counter, channel, timers)
unchanged — including the channel-saturated case, where the insertion is
rolled back. -/
theorem spawn_atomicity (st : HState) (m : Machine) :
    (∀ (tok : Token) (st' : HState), add_machine st m = (.ok tok, st') →
      st'.slab[tok.mio_token]? = some (some ⟨m, st.counter_next⟩) ∧
      tok.counter = some st.counter_next ∧
      st'.counter_next = st.counter_next + 1 ∧
      st'.channel.msgs = st.channel.msgs ++ [Msg.registerMachine tok] ∧
      st'.channel.cap = st.channel.cap ∧
      st'.timers = st.timers ∧
      (∀ j : Nat, j ≠ tok.mio_token → st'.slab[j]? = st.slab[j]?)) ∧
    (∀ (m' : Machine) (st' : HState), add_machine st m = (.error m', st') →
      m' = m ∧ st' = st) := by
  constructor
  · intro tok st' h
    obtain ⟨hfree, htc, hslab, hcnt, hmsgs, hcap, htm, _⟩ := add_machine_ok h
    refine ⟨?_, htc, hcnt, hmsgs, hcap, htm, ?_⟩
    · rw [hslab, List.getElem?_set_self (lt_length_of_get hfree)]
    · intro j hj
      rw [hslab, List.getElem?_set_ne (Ne.symm hj)]
  · intro m' st' h
    exact add_machine_error h

theorem spawn_atomicity_witness :
    (add_machine (initState 2 4) ⟨5, true⟩).2.slab[0]? = some (some ⟨⟨5, true⟩, 0⟩) ∧
    (add_machine (initState 2 0) ⟨5, true⟩).2 = initState 2 0 := by
  constructor
  · exact ((spawn_atomicity (initState 2 4) ⟨5, true⟩).1 ⟨0, some 0⟩ _ (by rfl)).1
  · exact ((spawn_atomicity (initState 2 0) ⟨5, true⟩).2 ⟨5, true⟩ _ (by rfl)).2

theorem with_machine_stale {st : HState} {tok : Token} (h : stale st tok) (f g : CB) :
    (with_machine st tok f).2.1 = st ∧ (with_machine st tok f).2.2 = [] ∧
    with_machine st tok f = with_machine st tok g := by
  cases hl : st.slab[tok.mio_token]? with
  | none => rw [with_machine_oob f hl, with_machine_oob g hl]; exact ⟨rfl, rfl, rfl⟩
  | some o =>
    cases o with
    | none => rw [with_machine_free f hl, with_machine_free g hl]; exact ⟨rfl, rfl, rfl⟩
    | some slot =>
      have hc : tok.counter_eq slot.counter = false := by
        simpa [stale, hl] using h
      rw [with_machine_mismatch f hl hc, with_machine_mismatch g hl hc]
      exact ⟨rfl, rfl, rfl⟩

/-- C3 (Stale-drop idempotence): dispatching any event — readiness, timeout
or notification — at a token that is stale (its slot free or out of range,
or occupied under a different generation) never runs a callback (the result
does not depend on the callback at all), never aborts anything, and leaves
the whole state unchanged; every dispatcher discards the internal `Result`,
so the event is swallowed as a success and nothing escalates. -/
theorem stale_drop_idempotence (st : HState) :
    (∀ (tok : Token) (f : CB), stale st tok →
      (with_machine st tok f).2.1 = st ∧ (with_machine st tok f).2.2 = [] ∧
      ∀ g : CB, with_machine st tok f = with_machine st tok g) ∧
    (∀ (raw : Nat) (f : CB), st.slab[raw]? = some none → handlerReady st raw f = st) ∧
    (∀ (e : TimeoutEntry) (tf : Nat → CB), stale st e.token → handlerTimeout st e tf = st) ∧
    (∀ (t : Token) (regb : Machine → Bool × List ScopeOp), stale st t →
      handlerNotify st (.registerMachine t) regb = (st, [])) := by
  refine ⟨?_, ?_, ?_, ?_⟩
  · intro tok f h
    obtain ⟨h1, h2, h3⟩ := with_machine_stale h f f
    exact ⟨h1, h2, fun g => (with_machine_stale h f g).2.2⟩
  · intro raw f h
    have hst : stale st (Token.of_raw raw) := by simp [stale, Token.of_raw, h]
    exact (with_machine_stale hst f f).1
  · intro e tf h
    exact (with_machine_stale h (tf e.payload) (tf e.payload)).1
  · intro t regb h
    have := with_machine_stale h
      (fun m => match regb m with
        | (true, ops) => ⟨some m, ops, []⟩
        | (false, ops) => ⟨none, ops, [Abort.registerFailed]⟩)
      (fun m => match regb m with
        | (true, ops) => ⟨some m, ops, []⟩
        | (false, ops) => ⟨none, ops, [Abort.registerFailed]⟩)
    simp only [handlerNotify]
    rw [Prod.mk.injEq]
    exact ⟨this.1, this.2.1⟩

theorem stale_drop_idempotence_witness :
    (with_machine (initState 3 4) ⟨1, some 7⟩ (fun m => ⟨some m, [], []⟩)).2.1 =
      initState 3 4 ∧
    handlerReady (initState 3 4) 0 (fun _ => ⟨none, [], []⟩) = initState 3 4 := by
  constructor
  · exact ((stale_drop_idempotence (initState 3 4)).1 ⟨1, some 7⟩
      (fun m => ⟨some m, [], []⟩) (by simp [stale, initState])).1
  · exact (stale_drop_idempotence (initState 3 4)).2.1 0
      (fun _ => ⟨none, [], []⟩) (by simp [initState])

theorem with_machine_writeback {st : HState} {tok : Token} {slot : EventMachineSlot} (f : CB)
    (h : st.slab[tok.mio_token]? = some (some slot))
    (hc : tok.counter_eq slot.counter = true) :
    (with_machine st tok f).2.1.slab[tok.mio_token]? =
      some ((f slot.machine).next.map fun m => ⟨m, slot.counter⟩) := by
  rw [with_machine_match f h hc]
  exact scope_commit_get_self tok slot (f slot.machine) (lt_length_of_get h)

theorem kills_eq_freed (st : HState) (tok : Token) (f : CB) :
    callbackKills st tok f = slotFreed st tok f := by
  cases hl : st.slab[tok.mio_token]? with
  | none =>
    rw [callbackKills, slotFreed, with_machine_oob f hl]
    simp [hl]
  | some o =>
    cases o with
    | none =>
      rw [callbackKills, slotFreed, with_machine_free f hl]
      simp [hl]
    | some slot =>
      cases hc : tok.counter_eq slot.counter with
      | false =>
        rw [callbackKills, slotFreed, with_machine_mismatch f hl hc]
        simp [hl, hc]
      | true =>
        have hw := with_machine_writeback f hl hc
        cases hn : (f slot.machine).next with
        | none =>
          rw [hn, Option.map_none'] at hw
          rw [callbackKills, slotFreed]
          simp [hl, hc, hn, hw]
        | some m' =>
          rw [hn, Option.map_some'] at hw
          rw [callbackKills, slotFreed]
          simp [hl, hc, hn, hw]

/-- C4 (Ownership-transfer teardown): when a dispatch reaches its callback
(slot occupied, generation matching), the slot ends up free exactly when the
callback returned nothing, and when the callback returned a machine the slot
stays occupied by that machine under the unchanged generation; consequently,
over any sequence of dispatches the number of nothing-returns that reached a
callback equals the number of slots freed by the dispatched machine's own
decision. -/
theorem ownership_transfer_teardown :
    (∀ (st : HState) (tok : Token) (f : CB) (slot : EventMachineSlot),
      st.slab[tok.mio_token]? = some (some slot) →
      tok.counter_eq slot.counter = true →
      (((with_machine st tok f).2.1.slab[tok.mio_token]? = some none) ↔
        (f slot.machine).next = none) ∧
      (∀ m' : Machine, (f slot.machine).next = some m' →
        (with_machine st tok f).2.1.slab[tok.mio_token]? = some (some ⟨m', slot.counter⟩))) ∧
    (∀ (st : HState) (seq : List (Token × CB)), noneReturns st seq = freedCount st seq) := by
  constructor
  · intro st tok f slot h hc
    have hw := with_machine_writeback f h hc
    constructor
    · rw [hw]
      cases hn : (f slot.machine).next with
      | none => simp [hn]
      | some m' => simp [hn]
    · intro m' hn
      rw [hw, hn, Option.map_some']
  · intro st seq
    induction seq generalizing st with
    | nil => rfl
    | cons hd rest ih =>
      cases hd with
      | mk tok f =>
        rw [noneReturns, freedCount, kills_eq_freed, ih]

theorem ownership_transfer_teardown_witness :
    (((with_machine (add_machine (initState 2 4) ⟨0, true⟩).2 ⟨0, some 0⟩
        (fun _ => ⟨none, [], []⟩)).2.1.slab[(0 : Nat)]? = some none) ↔
      (((fun _ => ⟨none, [], []⟩) : CB) ⟨0, true⟩).next = none) ∧
    noneReturns (initState 2 4) [] = freedCount (initState 2 4) [] := by
  constructor
  · exact (ownership_transfer_teardown.1 (add_machine (initState 2 4) ⟨0, true⟩).2
      ⟨0, some 0⟩ (fun _ => ⟨none, [], []⟩) ⟨⟨0, true⟩, 0⟩ (by decide) (by decide)).1
  · exact ownership_transfer_teardown.2 (initState 2 4) []

/-- C5 (Registration failure path): after a successful spawn, when the
Driver processes the `RegisterMachine` notification and the machine's
`register` reports failure, exactly one `abort(RegisterFailed)` is observed,
the machine's slot is free the moment the notification has been handled, and
from then on no dispatch at that machine's token ever reaches a callback
again, along any sequence of further reactor steps. -/
theorem registration_failure_path (st : HState) (m : Machine) (tok : Token) (st1 : HState)
    (regb : Machine → Bool × List ScopeOp) (ops : List ScopeOp)
    (hspawn : add_machine st m = (.ok tok, st1))
    (hreg : regb m = (false, ops)) :
    (handlerNotify st1 (.registerMachine tok) regb).2 = [Abort.registerFailed] ∧
    (handlerNotify st1 (.registerMachine tok) regb).1.slab[tok.mio_token]? = some none ∧
    (∀ st2 : HState, Reach (handlerNotify st1 (.registerMachine tok) regb).1 st2 →
      ∀ f g : CB, (with_machine st2 tok f).2.1 = st2 ∧ (with_machine st2 tok f).2.2 = [] ∧
        with_machine st2 tok f = with_machine st2 tok g) := by
  obtain ⟨hfree, htc, hslab, hcnt, _, _, _, _⟩ := add_machine_ok hspawn
  have hslot : st1.slab[tok.mio_token]? = some (some ⟨m, st.counter_next⟩) := by
    rw [hslab, List.getElem?_set_self (lt_length_of_get hfree)]
  have hc : tok.counter_eq (st.counter_next) = true := by
    simp [Token.counter_eq, htc]
  have hcb : (fun mm => match regb mm with
      | (true, ops') => CBOut.mk (some mm) ops' []
      | (false, ops') => CBOut.mk none ops' [Abort.registerFailed]) m =
      CBOut.mk none ops [Abort.registerFailed] := by
    simp only [hreg]
  have hmain := @with_machine_match st1 tok ⟨m, st.counter_next⟩
    (fun mm => match regb mm with
      | (true, ops') => CBOut.mk (some mm) ops' []
      | (false, ops') => CBOut.mk none ops' [Abort.registerFailed]) hslot hc
  have hwb := @with_machine_writeback st1 tok ⟨m, st.counter_next⟩
    (fun mm => match regb mm with
      | (true, ops') => CBOut.mk (some mm) ops' []
      | (false, ops') => CBOut.mk none ops' [Abort.registerFailed]) hslot hc
  refine ⟨?_, ?_, ?_⟩
  · simp only [handlerNotify, hmain, hcb]
  · simp only [handlerNotify, hwb, hcb, Option.map_none']
  · intro st2 hr f g
    have hle : st.counter_next + 1 ≤
        (handlerNotify st1 (.registerMachine tok) regb).1.counter_next := by
      simp only [handlerNotify]
      calc st.counter_next + 1 = st1.counter_next := hcnt.symm
        _ ≤ _ := with_machine_counter_le st1 tok _
    have hff : FreshFrom (st.counter_next + 1) tok.mio_token
        (handlerNotify st1 (.registerMachine tok) regb).1 := by
      refine ⟨hle, ?_⟩
      intro s hi
      rw [show (handlerNotify st1 (.registerMachine tok) regb).1.slab[tok.mio_token]? =
        some none from by simp only [handlerNotify, hwb, hcb, Option.map_none']] at hi
      exact absurd hi (by simp)
    have hff2 := reach_freshFrom hff hr
    have hstale : stale st2 tok := by
      rw [stale]
      cases hl2 : st2.slab[tok.mio_token]? with
      | none => trivial
      | some o =>
        cases o with
        | none => trivial
        | some s =>
          have hge : st.counter_next + 1 ≤ s.counter := hff2.2 s hl2
          simp [Token.counter_eq, htc]
          omega
    exact with_machine_stale hstale f g

theorem registration_failure_path_witness :
    (handlerNotify (add_machine (initState 2 4) ⟨3, false⟩).2
        (.registerMachine ⟨0, some 0⟩) (fun mm => (mm.registerOk, []))).2 =
      [Abort.registerFailed] ∧
    (handlerNotify (add_machine (initState 2 4) ⟨3, false⟩).2
        (.registerMachine ⟨0, some 0⟩) (fun mm => (mm.registerOk, []))).1.slab[(0 : Nat)]? =
      some none := by
  have h := registration_failure_path (initState 2 4) ⟨3, false⟩ ⟨0, some 0⟩ _
    (fun mm => (mm.registerOk, [])) [] (by rfl) (by rfl)
  exact ⟨h.1, h.2.1⟩

/-- C10 (Readiness dispatch ignores generations): a raw poller token is
decoded by `Token::from_mio` with no generation, such a token's `counter_eq`
accepts every stored generation, so a readiness event at an occupied slot is
delivered to whatever machine currently occupies it — also after the slot
was freed and reused — and only slot occupancy guards the dispatch: a free
slot makes it a no-op. -/
theorem readiness_ignores_generation :
    (∀ raw : Nat, (Token.of_raw raw).counter = none) ∧
    (∀ raw c : Nat, Token.counter_eq (Token.of_raw raw) c = true) ∧
    (∀ (st : HState) (raw : Nat) (slot : EventMachineSlot) (f : CB),
      st.slab[raw]? = some (some slot) →
      handlerReady st raw f = scope_commit (Token.of_raw raw) slot (f slot.machine) st) ∧
    (∀ (st : HState) (raw : Nat) (f : CB),
      st.slab[raw]? = some none → handlerReady st raw f = st) := by
  refine ⟨fun raw => rfl, fun raw c => rfl, ?_, ?_⟩
  · intro st raw slot f h
    rw [handlerReady, @with_machine_match st (Token.of_raw raw) slot f h rfl]
  · intro st raw f h
    rw [handlerReady, with_machine_free f h]

theorem readiness_ignores_generation_witness :
    handlerReady ⟨[some ⟨⟨9, true⟩, 5⟩], 6, ⟨4, []⟩, []⟩ 0 (fun m => ⟨some m, [], []⟩) =
      scope_commit (Token.of_raw 0) ⟨⟨9, true⟩, 5⟩
        ((fun m => (⟨some m, [], []⟩ : CBOut)) ⟨9, true⟩) ⟨[some ⟨⟨9, true⟩, 5⟩], 6, ⟨4, []⟩, []⟩ := by
  exact readiness_ignores_generation.2.2.1 ⟨[some ⟨⟨9, true⟩, 5⟩], 6, ⟨4, []⟩, []⟩ 0
    ⟨⟨9, true⟩, 5⟩ (fun m => ⟨some m, [], []⟩) (by decide)

theorem stale_timer_counterexample :
    (handlerReady (add_machine (initState 1 4) ⟨0, true⟩).2 0
        (fun m => ⟨some m, [ScopeOp.setTimeout 42], []⟩)).timers =
      [⟨⟨0, none⟩, 42⟩] ∧
    (handlerReady (handlerReady (add_machine (initState 1 4) ⟨0, true⟩).2 0
        (fun m => ⟨some m, [ScopeOp.setTimeout 42], []⟩)) 0
        (fun _ => ⟨none, [], []⟩)).slab[(0 : Nat)]? = some none ∧
    (add_machine (handlerReady (handlerReady (add_machine (initState 1 4) ⟨0, true⟩).2 0
        (fun m => ⟨some m, [ScopeOp.setTimeout 42], []⟩)) 0
        (fun _ => ⟨none, [], []⟩)) ⟨1, true⟩).2.slab[(0 : Nat)]? =
      some (some ⟨⟨1, true⟩, 1⟩) ∧
    (handlerTimeout (add_machine (handlerReady (handlerReady
          (add_machine (initState 1 4) ⟨0, true⟩).2 0
          (fun m => ⟨some m, [ScopeOp.setTimeout 42], []⟩)) 0
          (fun _ => ⟨none, [], []⟩)) ⟨1, true⟩).2
        ⟨⟨0, none⟩, 42⟩ (fun _ _ => ⟨some ⟨99, true⟩, [], []⟩)).slab[(0 : Nat)]? =
      some (some ⟨⟨99, true⟩, 1⟩) := by
  refine ⟨by decide, by decide, by decide, by decide⟩

/-- C6 (amended): a timeout scheduled through `Scope` is armed against the
token of the dispatch that scheduled it; when that token carries a
generation `Some(g)`, a timer firing after the slot was freed — also after
the index was reused under a new generation — is silently discarded, and a
timer firing at a free slot is always discarded; but a timer scheduled
during a readiness dispatch carries generation `None` and is delivered to
whatever machine occupies the slot when it fires, so slot reuse hands such a
timeout to the new occupant instead of discarding it. -/
theorem stale_timer_drop_amended :
    (∀ (st : HState) (tok : Token) (p : Nat),
      (applyScopeOps tok st [ScopeOp.setTimeout p]).timers = st.timers ++ [⟨tok, p⟩]) ∧
    (∀ (st : HState) (e : TimeoutEntry) (tf : Nat → CB), stale st e.token →
      handlerTimeout st e tf = st) ∧
    (∀ (st : HState) (e : TimeoutEntry) (tf : Nat → CB),
      st.slab[e.token.mio_token]? = some none → handlerTimeout st e tf = st) ∧
    (∀ (st : HState) (raw p : Nat) (tf : Nat → CB) (slot : EventMachineSlot),
      st.slab[raw]? = some (some slot) →
      handlerTimeout st ⟨Token.of_raw raw, p⟩ tf =
        scope_commit (Token.of_raw raw) slot (tf p slot.machine) st) := by
  refine ⟨?_, ?_, ?_, ?_⟩
  · intro st tok p
    rfl
  · intro st e tf h
    exact (with_machine_stale h (tf e.payload) (tf e.payload)).1
  · intro st e tf h
    have hst : stale st e.token := by rw [stale, h]; trivial
    exact (with_machine_stale hst (tf e.payload) (tf e.payload)).1
  · intro st raw p tf slot h
    rw [handlerTimeout, @with_machine_match st (Token.of_raw raw) slot (tf p) h rfl]

theorem stale_timer_drop_amended_witness :
    handlerTimeout (initState 3 4) ⟨⟨1, some 7⟩, 5⟩ (fun _ _ => ⟨none, [], []⟩) =
      initState 3 4 ∧
    handlerTimeout ⟨[some ⟨⟨8, true⟩, 2⟩], 3, ⟨4, []⟩, []⟩ ⟨Token.of_raw 0, 5⟩
        (fun _ m => ⟨some m, [], []⟩) =
      scope_commit (Token.of_raw 0) ⟨⟨8, true⟩, 2⟩
        ((fun _ m => (⟨some m, [], []⟩ : CBOut)) 5 ⟨8, true⟩)
        ⟨[some ⟨⟨8, true⟩, 2⟩], 3, ⟨4, []⟩, []⟩ := by
  constructor
  · exact stale_timer_drop_amended.2.1 (initState 3 4) ⟨⟨1, some 7⟩, 5⟩
      (fun _ _ => ⟨none, [], []⟩) (by simp [stale, initState])
  · exact stale_timer_drop_amended.2.2.2 ⟨[some ⟨⟨8, true⟩, 2⟩], 3, ⟨4, []⟩, []⟩ 0 5
      (fun _ m => ⟨some m, [], []⟩) ⟨⟨8, true⟩, 2⟩ (by decide)

end Rotor

namespace Rotor.Greedy

/-- C7 (Edge-triggered drain): on a readable-only event, when the socket
yields several successive non-empty reads before reporting would-block, the
`ready` handler keeps reading and hands each chunk to the protocol's
`data_received` within that single invocation — here two chunks, each
delivered right after its read — and the would-block ends the loop with the
readable flag cleared; an interrupted read in between retries without any
other effect, producing the identical result. -/
theorem edge_triggered_drain {P : Type} (pf : PFun P) (p0 p1 p2 : P)
    (c1 c2 ib ib1 ib2 ob1 ob2 : List Nat) (ws : List WrRes) (rb : Bool)
    (h1 : c1 ≠ []) (h2 : c2 ≠ [])
    (hp1 : pf p0 (ib ++ c1) [] = (some p1, ib1, ob1))
    (hp2 : pf p1 (ib1 ++ c2) ob1 = (some p2, ib2, ob2)) :
    ready pf ⟨true, false⟩
        ⟨⟨[.chunk c1, .chunk c2, .wouldBlock], ws⟩, ib, [], false, rb, some p0⟩ =
      some ⟨⟨[], ws⟩, ib2, ob2, false, false, some p2⟩ ∧
    ready pf ⟨true, false⟩
        ⟨⟨[.chunk c1, .interrupted, .chunk c2, .wouldBlock], ws⟩, ib, [], false, rb, some p0⟩ =
      some ⟨⟨[], ws⟩, ib2, ob2, false, false, some p2⟩ := by
  obtain ⟨b1, bs1, hb1⟩ := List.exists_cons_of_ne_nil h1
  obtain ⟨b2, bs2, hb2⟩ := List.exists_cons_of_ne_nil h2
  subst hb1 hb2
  constructor
  · simp [ready, readLoop, hp1, hp2]
  · simp [ready, readLoop, hp1, hp2]

theorem edge_triggered_drain_witness :
    ready (fun (p : List (List Nat)) ib ob => (some (p ++ [ib]), [], ob)) ⟨true, false⟩
        ⟨⟨[.chunk [1, 2, 3, 4, 5, 6], .chunk [7, 8, 9, 10], .wouldBlock], []⟩,
          [], [], false, false, some []⟩ =
      some ⟨⟨[], []⟩, [], [], false, false,
        some [[1, 2, 3, 4, 5, 6], [7, 8, 9, 10]]⟩ := by
  exact (edge_triggered_drain (fun (p : List (List Nat)) ib ob => (some (p ++ [ib]), [], ob))
    [] [[1, 2, 3, 4, 5, 6]] [[1, 2, 3, 4, 5, 6], [7, 8, 9, 10]]
    [1, 2, 3, 4, 5, 6] [7, 8, 9, 10] [] [] [] [] [] [] false
    (by simp) (by simp) (by rfl) (by rfl)).1

end Rotor.Greedy

namespace Rotor.Accepting

theorem accept_loop_counterexample :
    (serveReady (fun c => c) (fun m _ sc => (some m, sc)) ⟨true, false⟩
        (.accept [.conn 1, .conn 2, .conn 3]) ⟨100, [], []⟩).2.spawned =
      [Serve.connection 1] ∧
    (serveReady (fun c => c) (fun m _ sc => (some m, sc)) ⟨true, false⟩
        (.accept [.conn 1, .conn 2, .conn 3]) ⟨100, [], []⟩).1 =
      some (.accept [.conn 2, .conn 3]) ∧
    [Serve.connection (1 : Nat)].length ≠ 3 := by
  exact ⟨by decide, by decide, by decide⟩

/-- C8 (amended): on a readable event the Accept machine calls `accept()`
once and spawns at most one child machine — three pending connections need
three readable events, which the level-triggered registration of the
listening socket keeps delivering; the accepted child is built by the
pluggable factory and spawned through the scope, a failed spawn aborts the
child with `MachineAddError`, a would-block accept does nothing, and the
accept machine itself always survives the event. -/
theorem accept_one_per_event_amended {M : Type} (init : Nat → M)
    (mready : M → EvSet → ScopeSt M → Option M × ScopeSt M)
    (ev : EvSet) (c : Nat) (rest : List AcceptRes) (sc : ScopeSt M) :
    (sc.spawned.length < sc.cap →
      serveReady init mready ev (.accept (.conn c :: rest)) sc =
        (some (.accept rest), { sc with spawned := sc.spawned ++ [.connection (init c)] })) ∧
    (¬ sc.spawned.length < sc.cap →
      serveReady init mready ev (.accept (.conn c :: rest)) sc =
        (some (.accept rest), { sc with aborts := sc.aborts ++ [Rotor.Abort.machineAddError] })) ∧
    (serveReady init mready ev (.accept (.noneReady :: rest)) sc = (some (.accept rest), sc)) ∧
    (serveReady init mready ev (.accept []) sc = (some (.accept []), sc)) ∧
    (∀ creg : M → EvSet × PollMode,
      serveRegisterMode creg (.accept rest) = (⟨true, false⟩, .level)) := by
  refine ⟨?_, ?_, ?_, ?_, ?_⟩
  · intro h
    simp [serveReady, async_add_machine, h]
  · intro h
    simp [serveReady, async_add_machine, h]
  · rfl
  · rfl
  · intro creg
    rfl

theorem accept_one_per_event_amended_witness :
    serveReady (fun c => c) (fun m _ sc => (some m, sc)) ⟨true, false⟩
        (.accept [.conn 5]) ⟨2, [], []⟩ =
      (some (.accept []), ⟨2, [Serve.connection 5], []⟩) ∧
    serveReady (fun c => c) (fun m _ sc => (some m, sc)) ⟨true, false⟩
        (.accept [.conn 5]) ⟨0, [], []⟩ =
      (some (.accept []), ⟨0, [], [Rotor.Abort.machineAddError]⟩) := by
  constructor
  · exact (accept_one_per_event_amended (fun c => c) (fun m _ sc => (some m, sc))
      ⟨true, false⟩ 5 [] ⟨2, [], []⟩).1 (by decide)
  · exact (accept_one_per_event_amended (fun c => c) (fun m _ sc => (some m, sc))
      ⟨true, false⟩ 5 [] ⟨0, [], []⟩).2.1 (by decide)

end Rotor.Accepting

namespace Rotor.Udp

theorem datagram_partial_counterexample :
    uready (fun (p : Unit) _ q => (some p, q)) ⟨false, true⟩
        ⟨⟨[], [.sent 2, .blocked]⟩, [(7, [1, 2, 3, 4]), (7, [5, 6])], some ()⟩ =
      some ⟨⟨[], []⟩, [(7, [5, 6])], some ()⟩ ∧
    [(7, [5, 6])] ≠ [(7, [1, 2, 3, 4]), (7, [5, 6])] := by
  exact ⟨by decide, by decide⟩

/-- C9 (amended): on a writable event queued datagrams are attempted
strictly in FIFO order; a blocked (would-block) send pushes the pair back to
the front of the queue and ends the loop, so the same datagram is retried
before any later one on the next writable event, and an interrupted send
retries the same pair; but a send that succeeds partially (`Ok(Some(n))`
with `n` short of the payload — a TODO in the source) is treated as complete
and the pair is not re-queued. -/
theorem datagram_order_amended {P : Type} (pf : UFun P) (p : P) (rs : List RecvRes)
    (ss : List SendRes) (t : Nat) (b : List Nat) (q : List (Nat × List Nat)) :
    (uready pf ⟨false, true⟩ ⟨⟨rs, .blocked :: ss⟩, (t, b) :: q, some p⟩ =
      some ⟨⟨rs, ss⟩, (t, b) :: q, some p⟩) ∧
    (∀ (k : Nat) (ss' : List SendRes) (q' : List (Nat × List Nat)), k < q'.length →
      sendLoop (List.replicate k (.sent 1) ++ .blocked :: ss') q' =
        some (q'.drop k, ss')) ∧
    (sendLoop (.interrupted :: ss) ((t, b) :: q) = sendLoop ss ((t, b) :: q)) := by
  refine ⟨?_, ?_, ?_⟩
  · simp [uready, sendLoop]
  · intro k
    induction k with
    | zero =>
      intro ss' q' h
      cases q' with
      | nil => simp at h
      | cons d qt => simp [sendLoop]
    | succ k ih =>
      intro ss' q' h
      cases q' with
      | nil => simp at h
      | cons d qt =>
        rw [List.replicate_succ, List.cons_append, sendLoop, List.drop_succ_cons]
        exact ih ss' qt (by simpa using h)
  · rfl

theorem datagram_order_amended_witness :
    uready (fun (p : Unit) _ q => (some p, q)) ⟨false, true⟩
        ⟨⟨[], [.blocked]⟩, [(7, [1])], some ()⟩ =
      some ⟨⟨[], []⟩, [(7, [1])], some ()⟩ ∧
    sendLoop [.sent 1, .blocked] [(1, [2]), (3, [4])] = some ([(3, [4])], []) := by
  constructor
  · exact (datagram_order_amended (fun (p : Unit) _ q => (some p, q)) () [] [] 7 [1] []).1
  · exact (datagram_order_amended (fun (p : Unit) _ q => (some p, q)) () [] [] 7 [1] []).2.1
      1 [] [(1, [2]), (3, [4])] (by decide)

end Rotor.Udp
